import Mathlib

/-!
Verification development for the worktree-registry-and-view-multiplexing
subsystem of the Nostromo repository (a VS Code - OSS derivative).

The embedding models URIs by their posix path component (all URIs compared
in the sources share one scheme/authority, so `uri.toString()` equality
coincides with path equality), the file service by a finite map from
absolute paths to entries, and `URI.joinPath` by posix join/normalization
on path segments.
-/

namespace Nostromo

/-! ## Posix path model (vscode `URI.joinPath` / Node `path.posix.join`) -/

/-- A path segment counts as plain when it is nonempty, contains no slash
and is neither `.` nor `..`; such segments are inert under normalization. -/
def PlainSeg (s : String) : Prop :=
  s ≠ "" ∧ (∀ c ∈ s.data, c ≠ '/') ∧ s ≠ "." ∧ s ≠ ".."

instance (s : String) : Decidable (PlainSeg s) := by
  unfold PlainSeg; infer_instance

/-- Split a character stream at `/`, accumulating the current segment. -/
def segsOfAux : List Char → List Char → List String
  | [], cur => if cur = [] then [] else [String.mk cur]
  | ch :: rest, cur =>
    if ch = '/' then
      (if cur = [] then segsOfAux rest [] else String.mk cur :: segsOfAux rest [])
    else segsOfAux rest (cur ++ [ch])

/-- Nonempty segments of a path string (empty segments from `//` dropped,
as posix normalization does). -/
def splitPath (p : String) : List String := segsOfAux p.data []

/-- One normalization step: drop empty and `.` segments, let `..` pop the
previous segment (at the root, `..` is dropped — absolute-path semantics). -/
def normStep (acc : List String) (s : String) : List String :=
  if s = "" ∨ s = "." then acc
  else if s = ".." then acc.dropLast
  else acc ++ [s]

def normSegs (l : List String) : List String := l.foldl normStep []

/-- Join segments with `/` (no leading slash). -/
def joinSegs : List String → String
  | [] => ""
  | [s] => s
  | s :: rest => s ++ "/" ++ joinSegs rest

/-- Rebuild an absolute path from segments. -/
def mkPath (l : List String) : String := "/" ++ joinSegs l

/-- `URI.joinPath base frag` = posix join of the two path strings followed
by normalization; bases are absolute URI paths throughout the sources. -/
def joinPath (base frag : String) : String :=
  mkPath (normSegs (splitPath base ++ splitPath frag))

def normalizePath (p : String) : String := mkPath (normSegs (splitPath p))

/-- A well-formed absolute path: already normalized into plain segments. -/
def PathWF (p : String) : Prop :=
  (∀ s ∈ splitPath p, PlainSeg s) ∧ mkPath (splitPath p) = p

instance (p : String) : Decidable (PathWF p) := by
  unfold PathWF; infer_instance

/-! ## String helpers mirroring the JS operations used by the sources -/

/-- JS `String.prototype.trim`: strip leading and trailing whitespace. -/
def strTrim (s : String) : String :=
  String.mk (((s.data.dropWhile Char.isWhitespace).reverse.dropWhile
    Char.isWhitespace).reverse)

/-- JS `String.prototype.startsWith`. -/
def strStartsWith (s p : String) : Bool := p.data.isPrefixOf s.data

/-- JS `String.prototype.endsWith`. -/
def strEndsWith (s p : String) : Bool := p.data.isSuffixOf s.data

/-- JS `s.replace(/^ref: refs\/heads\//, '')` style anchored prefix strip:
removes `pre` from the front when present, else leaves `s` unchanged. -/
def stripAnchoredPrefix (s pre : String) : String :=
  if strStartsWith s pre then s.drop pre.length else s

/-- JS `gitdirContent.replace(/\/\.git\s*$/, '')` applied to already trimmed
content: removes a trailing `/.git` when present. -/
def stripDotGitSuffix (s : String) : String :=
  if strEndsWith s "/.git" then s.dropRight 5 else s

/-- JS `text.match(/^gitdir:\s*(.+)$/)` on trimmed text: requires the
`gitdir:` prefix and a nonempty single-line remainder after whitespace. -/
def parseGitdirLine (text : String) : Option String :=
  if strStartsWith text "gitdir:" then
    let rest := (text.drop 7).dropWhile Char.isWhitespace
    if rest ≠ "" ∧ ¬ rest.contains '\n' then some rest else none
  else none

/-- JS `indexOf` of a substring, by character position. -/
def idxOfSubAux (needle : List Char) : List Char → Nat → Option Nat
  | [], i => if needle.isPrefixOf [] then some i else none
  | c :: rest, i =>
    if needle.isPrefixOf (c :: rest) then some i else idxOfSubAux needle rest (i + 1)

def indexOfSub (hay sub : String) : Option Nat := idxOfSubAux sub.data hay.data 0

/-- JS `p.substring(p.lastIndexOf('/') + 1)`. -/
def lastSegment (p : String) : String := ((p.splitOn "/").getLast?).getD ""

/-- JS `s.substring(0, n)` (character count). -/
def strTake (s : String) (n : Nat) : String := String.mk (s.data.take n)

/-! ## File-service model

`IFileService` is modeled as a finite map from absolute paths to entries.
`stat` fails on a missing path, `readFile` succeeds only on files,
`resolve(..).children` yields the stored child names of a directory, and
`del` succeeds exactly when the path is present. -/

inductive FsEntry
  | file (content : String)
  | dir (children : List String)
deriving DecidableEq, Repr

structure FileSystem where
  entries : List (String × FsEntry)
deriving DecidableEq, Repr

def lookupEntries (p : String) : List (String × FsEntry) → Option FsEntry
  | [] => none
  | kv :: rest => if kv.1 = p then some kv.2 else lookupEntries p rest

def FileSystem.lookup (fs : FileSystem) (p : String) : Option FsEntry :=
  lookupEntries p fs.entries

/-- `fileService.stat(p).isDirectory`; `none` models the thrown not-found. -/
def FileSystem.statIsDir (fs : FileSystem) (p : String) : Option Bool :=
  match fs.lookup p with
  | some (.dir _) => some true
  | some (.file _) => some false
  | none => none

def FileSystem.isDir (fs : FileSystem) (p : String) : Bool :=
  match fs.lookup p with
  | some (.dir _) => true
  | _ => false

/-- `fileService.readFile`; fails on directories and missing paths. -/
def FileSystem.readFile (fs : FileSystem) (p : String) : Option String :=
  match fs.lookup p with
  | some (.file c) => some c
  | _ => none

/-- `fileService.resolve(p).children` names; `none` when `resolve` throws
or the entry is a file (no `children` field — callers skip either way). -/
def FileSystem.childrenOf (fs : FileSystem) (p : String) : Option (List String) :=
  match fs.lookup p with
  | some (.dir names) => some names
  | _ => none

/-- `fileService.del` succeeds exactly on present paths. -/
def FileSystem.pathExists (fs : FileSystem) (p : String) : Bool :=
  (fs.lookup p).isSome

/-- A single entry is well-formed when a directory holds only plain child
names (real directory listings never contain `""`, `.`, `..` or a slash). -/
def FsEntry.OK : FsEntry → Prop
  | .dir names => ∀ n ∈ names, PlainSeg n
  | .file _ => True

instance (e : FsEntry) : Decidable e.OK := by
  cases e <;> simp only [FsEntry.OK] <;> infer_instance

/-- Well-formed file system: every directory entry holds plain child names. -/
def FileSystem.WF (fs : FileSystem) : Prop :=
  ∀ kv ∈ fs.entries, FsEntry.OK kv.2

instance (fs : FileSystem) : Decidable (FileSystem.WF fs) :=
  List.decidableBAll _ fs.entries

/-! ## Data model (`gitWorktrees.ts` interfaces) -/

structure IGitWorktree where
  name : String
  path : String
  uri : String
  branch : String
  isCurrent : Bool
  isMain : Bool
  isDetached : Bool
deriving DecidableEq, Repr

structure IGitWorktreeRepository where
  rootUri : String
  name : String
  worktrees : List IGitWorktree
deriving DecidableEq, Repr

/-! ## `GitWorktreeService` (browser, manual filesystem embedding)

Translated from `GitWorktreeService` (unnamed part_003): `_resolveGitDir`,
`_scanRepository`, `removeWorktree`, `refresh`. -/

/-- `GitWorktreeService._resolveGitDir`: if the `.git` path is a directory
it is the git dir; if it is a file, parse its `gitdir: <path>` line and
join the target relative to the parent of `.git`; on any failure return
the input path unchanged. -/
def resolveGitDir (fs : FileSystem) (gitPath : String) : String :=
  match fs.statIsDir gitPath with
  | some true => gitPath
  | _ =>
    match fs.readFile gitPath with
    | some content =>
      match parseGitdirLine (strTrim content) with
      | some gitdirPath => joinPath (joinPath gitPath "..") gitdirPath
      | none => gitPath
    | none => gitPath

/-- One iteration of the linked-worktree loop in `_scanRepository`
(lines 273-299): skip non-directories, read the entry's `HEAD` and
`gitdir`, derive detachment/branch from `HEAD` and the working directory
from `gitdir` (stripping the trailing `/.git`); unreadable entries are
skipped (the `try`/`catch` around the body). -/
def scanChild (fs : FileSystem) (currentFolders : List String)
    (worktreesDir : String) (childName : String) : Option IGitWorktree :=
  let childPath := joinPath worktreesDir childName
  if fs.isDir childPath then
    match fs.readFile (joinPath childPath "HEAD"),
          fs.readFile (joinPath childPath "gitdir") with
    | some headRaw, some gitdirRaw =>
      let headContent := strTrim headRaw
      let gitdirContent := strTrim gitdirRaw
      let isDetached := ! strStartsWith headContent "ref: "
      let branch := stripAnchoredPrefix headContent "ref: refs/heads/"
      let worktreePath := stripDotGitSuffix gitdirContent
      some { name := childName, path := worktreePath, uri := worktreePath,
             branch := branch,
             isCurrent := currentFolders.contains worktreePath,
             isMain := false, isDetached := isDetached }
    | _, _ => none
  else none

/-- `GitWorktreeService._scanRepository`: resolve the common git dir (a
`.git` directory is itself the common dir; a `.git` file is resolved and
truncated before any `/worktrees/` segment), read the main `HEAD`
(failure aborts the scan with `undefined`), then collect the readable
linked entries under `<commonDir>/worktrees/`. -/
def scanRepository (fs : FileSystem) (currentFolders : List String)
    (repoPath : String) : Option IGitWorktreeRepository :=
  let gitPath := joinPath repoPath ".git"
  let commonGitDirOpt : Option String :=
    match fs.statIsDir gitPath with
    | some true => some gitPath
    | some false =>
      let resolved := resolveGitDir fs gitPath
      (match indexOfSub resolved "/worktrees/" with
       | some i => some (strTake resolved i)
       | none => some resolved)
    | none => none
  match commonGitDirOpt with
  | none => none
  | some commonGitDir =>
    let repoName := lastSegment repoPath
    match fs.readFile (joinPath commonGitDir "HEAD") with
    | none => none
    | some headRaw =>
      let headContent := strTrim headRaw
      let isDetached := ! strStartsWith headContent "ref: "
      let branch := stripAnchoredPrefix headContent "ref: refs/heads/"
      let mainPath := joinPath commonGitDir ".."
      let mainRecord : IGitWorktree :=
        { name := repoName, path := mainPath, uri := mainPath,
          branch := branch,
          isCurrent := currentFolders.contains mainPath,
          isMain := true, isDetached := isDetached }
      let worktreesDir := joinPath commonGitDir "worktrees"
      let linked : List IGitWorktree :=
        match fs.childrenOf worktreesDir with
        | some names => names.filterMap (scanChild fs currentFolders worktreesDir)
        | none => []
      some { rootUri := repoPath, name := repoName,
             worktrees := mainRecord :: linked }

/-- A linked entry under `<commonDir>/worktrees/` counts as readable when
it is a directory with readable `HEAD` and `gitdir` files. -/
def linkedEntryReadable (fs : FileSystem) (worktreesDir name : String) : Bool :=
  fs.isDir (joinPath worktreesDir name)
  && (fs.readFile (joinPath (joinPath worktreesDir name) "HEAD")).isSome
  && (fs.readFile (joinPath (joinPath worktreesDir name) "gitdir")).isSome

/-- Number of readable linked worktree entries of the repository at
`repoPath` whose `.git` is a real directory (the main-checkout case). -/
def linkedReadableCount (fs : FileSystem) (repoPath : String) : Nat :=
  let worktreesDir := joinPath (joinPath repoPath ".git") "worktrees"
  match fs.childrenOf worktreesDir with
  | some names => names.countP (fun n => linkedEntryReadable fs worktreesDir n)
  | none => 0

/-- The loop of `removeWorktree` (lines 155-177): first directory child of
`<commonDir>/worktrees/` whose readable `gitdir` resolves to the target
working directory; unreadable entries and files are skipped. -/
def findWorktreeEntry (fs : FileSystem) (worktreesDir : String) :
    List String → String → Option String
  | [], _ => none
  | name :: rest, target =>
    let childPath := joinPath worktreesDir name
    if fs.isDir childPath then
      match fs.readFile (joinPath childPath "gitdir") with
      | some raw =>
        if stripDotGitSuffix (strTrim raw) = target then some childPath
        else findWorktreeEntry fs worktreesDir rest target
      | none => findWorktreeEntry fs worktreesDir rest target
    else findWorktreeEntry fs worktreesDir rest target

/-- `GitWorktreeService.removeWorktree` (lines 142-187), abstracted to the
list of paths it deletes: throws when no tracked repository contains the
target; otherwise deletes the matching administrative entry (if one is
found) and then the working directory itself, where the latter deletion
failure on an already-absent directory is swallowed (`catch` at 182-184). -/
def removeWorktree (fs : FileSystem) (repositories : List IGitWorktreeRepository)
    (worktreeUri : String) : Except String (List String) :=
  match repositories.find? (fun r => r.worktrees.any (fun w => w.uri = worktreeUri)) with
  | none => Except.error "Worktree not found in any tracked repository"
  | some repo =>
    let commonGitDir := resolveGitDir fs (joinPath repo.rootUri ".git")
    let worktreesDir := joinPath commonGitDir "worktrees"
    let entryDeleted : List String :=
      match fs.childrenOf worktreesDir with
      | some names => (findWorktreeEntry fs worktreesDir names worktreeUri).toList
      | none => []
    let workdirDeleted : List String :=
      if fs.pathExists worktreeUri then [worktreeUri] else []
    Except.ok (entryDeleted ++ workdirDeleted)

/-- `refreshLoop` is the `for`/`try` loop of `GitWorktreeService.refresh`
(lines 74-84): repositories whose scan throws or returns `undefined`
(both abstracted as `none`) are skipped, the rest are kept in order. -/
def refreshLoop (scan : String → Option IGitWorktreeRepository) :
    List String → List IGitWorktreeRepository
  | [] => []
  | u :: rest =>
    match scan u with
    | some repo => repo :: refreshLoop scan rest
    | none => refreshLoop scan rest

structure WorktreeServiceState where
  trackedRepoUris : List String
  repositories : List IGitWorktreeRepository
  changeEvents : Nat
deriving DecidableEq, Repr

/-- `GitWorktreeService.refresh` (lines 73-87): rebuild the repository
list from scratch via the scan loop, assign it wholesale to
`_repositories`, and fire `_onDidChange` once. -/
def refresh (scan : String → Option IGitWorktreeRepository)
    (s : WorktreeServiceState) : WorktreeServiceState :=
  { s with repositories := refreshLoop scan s.trackedRepoUris,
           changeEvents := s.changeEvents + 1 }

/-! ## Worktree panel renderer (`worktreePanelPart.ts`) -/

structure WorktreeItemView where
  archiveButtonHidden : Bool
  removeHandlerAttached : Bool
deriving DecidableEq, Repr

/-- `WorktreeItemRenderer.renderElement` (lines 120-150), restricted to
the removal affordance: the archive button is hidden for the main
worktree (`display = 'none'`) and the click handler executing
`gitWorktrees.removeWorktree` is attached only when `!worktree.isMain` —
the sole invocation point of that command. -/
def renderElement (w : IGitWorktree) : WorktreeItemView :=
  { archiveButtonHidden := w.isMain, removeHandlerAttached := ! w.isMain }

/-! ## Lemmas about the path model -/

theorem string_eq_empty_iff_data {s : String} : s = "" ↔ s.data = [] := by
  constructor
  · intro h
    rw [h]
  · intro h
    exact String.ext (by simpa using h)

theorem string_ne_empty_iff_data {s : String} : s ≠ "" ↔ s.data ≠ [] :=
  not_congr string_eq_empty_iff_data

theorem foldl_normStep_plain {l : List String} (hl : ∀ s ∈ l, PlainSeg s) :
    ∀ acc, l.foldl normStep acc = acc ++ l := by
  induction l with
  | nil => intro acc; simp
  | cons x t ih =>
    intro acc
    have hx : PlainSeg x := hl x (by simp)
    have hstep : normStep acc x = acc ++ [x] := by
      unfold normStep
      rw [if_neg, if_neg]
      · exact hx.2.2.2
      · push_neg
        exact ⟨hx.1, hx.2.2.1⟩
    rw [List.foldl_cons, hstep, ih (fun s hs => hl s (by simp [hs]))]
    simp

theorem normSegs_plain {l : List String} (hl : ∀ s ∈ l, PlainSeg s) :
    normSegs l = l := by
  simpa using foldl_normStep_plain hl []

theorem normSegs_append_plain {l₁ l₂ : List String} (h₂ : ∀ s ∈ l₂, PlainSeg s) :
    normSegs (l₁ ++ l₂) = normSegs l₁ ++ l₂ := by
  unfold normSegs
  rw [List.foldl_append]
  exact foldl_normStep_plain h₂ _

theorem joinSegs_cons_ne {a : String} {rest : List String} (h : rest ≠ []) :
    joinSegs (a :: rest) = a ++ "/" ++ joinSegs rest := by
  cases rest with
  | nil => exact absurd rfl h
  | cons b t => rfl

theorem string_length_pos {x : String} (hx : x ≠ "") : 0 < x.length :=
  List.length_pos.mpr (string_ne_empty_iff_data.mp hx)

theorem length_joinSegs_append_one {l : List String} {x : String} (hx : x ≠ "") :
    (joinSegs l).length < (joinSegs (l ++ [x])).length := by
  induction l with
  | nil =>
    show (("" : String)).length < x.length
    exact string_length_pos hx
  | cons a t ih =>
    have hne : t ++ [x] ≠ [] := by simp
    rw [List.cons_append, joinSegs_cons_ne hne]
    cases t with
    | nil =>
      have hx0 : 0 < x.length := string_length_pos hx
      show a.length < (a ++ "/" ++ x).length
      simp only [String.length_append]
      omega
    | cons b t' =>
      rw [joinSegs_cons_ne (by simp)]
      simp only [String.length_append]
      omega

theorem length_mkPath_append_one {l : List String} {x : String} (hx : x ≠ "") :
    (mkPath l).length < (mkPath (l ++ [x])).length := by
  unfold mkPath
  simp only [String.length_append]
  have := length_joinSegs_append_one (l := l) hx
  omega

theorem data_append (s t : String) : (s ++ t).data = s.data ++ t.data := rfl

theorem segsOfAux_all_ne_slash {cs : List Char} (hcs : ∀ c ∈ cs, c ≠ '/') :
    ∀ cur, cur ++ cs ≠ [] → segsOfAux cs cur = [String.mk (cur ++ cs)] := by
  induction cs with
  | nil =>
    intro cur hne
    simp only [List.append_nil] at hne ⊢
    simp [segsOfAux, hne]
  | cons c rest ih =>
    intro cur _
    have hc : c ≠ '/' := hcs c (by simp)
    have hrest : ∀ d ∈ rest, d ≠ '/' := fun d hd => hcs d (by simp [hd])
    simp only [segsOfAux, if_neg hc]
    rw [ih hrest (cur ++ [c]) (by simp)]
    simp

theorem segsOfAux_flush {cs : List Char} (hcs : ∀ c ∈ cs, c ≠ '/') :
    ∀ cur rest, cur ++ cs ≠ [] →
      segsOfAux (cs ++ '/' :: rest) cur = String.mk (cur ++ cs) :: segsOfAux rest [] := by
  induction cs with
  | nil =>
    intro cur rest hne
    simp only [List.append_nil] at hne
    simp [segsOfAux, hne]
  | cons c cs' ih =>
    intro cur rest _
    have hc : c ≠ '/' := hcs c (by simp)
    have hcs' : ∀ d ∈ cs', d ≠ '/' := fun d hd => hcs d (by simp [hd])
    have h1 : segsOfAux ((c :: cs') ++ '/' :: rest) cur
        = segsOfAux (cs' ++ '/' :: rest) (cur ++ [c]) := by
      show segsOfAux (c :: (cs' ++ '/' :: rest)) cur = _
      simp only [segsOfAux, if_neg hc]
    rw [h1, ih hcs' (cur ++ [c]) rest (by simp)]
    simp

theorem plainSeg_data_ne_nil {x : String} (hx : PlainSeg x) : x.data ≠ [] :=
  string_ne_empty_iff_data.mp hx.1

theorem plainSeg_data_ne_slash {x : String} (hx : PlainSeg x) :
    ∀ c ∈ x.data, c ≠ '/' := hx.2.1

theorem splitPath_single {x : String} (hx : PlainSeg x) : splitPath x = [x] := by
  unfold splitPath
  rw [segsOfAux_all_ne_slash (plainSeg_data_ne_slash hx) []
    (by simpa using plainSeg_data_ne_nil hx)]
  simp

theorem segsOfAux_joinSegs {l : List String} (hl : ∀ s ∈ l, PlainSeg s) :
    segsOfAux (joinSegs l).data [] = l := by
  induction l with
  | nil => simp [joinSegs, segsOfAux]
  | cons x t ih =>
    have hx : PlainSeg x := hl x (by simp)
    have ht : ∀ s ∈ t, PlainSeg s := fun s hs => hl s (by simp [hs])
    cases t with
    | nil =>
      simp only [joinSegs]
      rw [segsOfAux_all_ne_slash (plainSeg_data_ne_slash hx) []
        (by simpa using plainSeg_data_ne_nil hx)]
      simp
    | cons y t' =>
      rw [joinSegs_cons_ne (by simp)]
      have hdata : (x ++ "/" ++ joinSegs (y :: t')).data
          = x.data ++ '/' :: (joinSegs (y :: t')).data := by
        simp [data_append]
      rw [hdata]
      rw [segsOfAux_flush (plainSeg_data_ne_slash hx) []
        ((joinSegs (y :: t')).data) (by simpa using plainSeg_data_ne_nil hx)]
      simp [ih ht]

theorem splitPath_mkPath {l : List String} (hl : ∀ s ∈ l, PlainSeg s) :
    splitPath (mkPath l) = l := by
  unfold splitPath mkPath
  have hdata : (("/" : String) ++ joinSegs l).data = '/' :: (joinSegs l).data := by
    simp [data_append]
  rw [hdata]
  simp only [segsOfAux, if_pos rfl]
  exact segsOfAux_joinSegs hl

theorem joinPath_plain {base x : String} (hb : PathWF base) (hx : PlainSeg x) :
    joinPath base x = mkPath (splitPath base ++ [x]) := by
  unfold joinPath
  rw [splitPath_single hx, normSegs_append_plain (by simpa using hx),
    normSegs_plain hb.1]

theorem pathWF_joinPath {base x : String} (hb : PathWF base) (hx : PlainSeg x) :
    PathWF (joinPath base x) := by
  have hplain : ∀ s ∈ splitPath base ++ [x], PlainSeg s := by
    intro s hs
    rcases List.mem_append.mp hs with h | h
    · exact hb.1 s h
    · simpa [List.mem_singleton.mp h] using hx
  constructor
  · intro s hs
    rw [joinPath_plain hb hx, splitPath_mkPath hplain] at hs
    exact hplain s hs
  · rw [joinPath_plain hb hx, splitPath_mkPath hplain]

theorem splitPath_joinPath {base x : String} (hb : PathWF base) (hx : PlainSeg x) :
    splitPath (joinPath base x) = splitPath base ++ [x] := by
  rw [joinPath_plain hb hx]
  refine splitPath_mkPath ?_
  intro s hs
  rcases List.mem_append.mp hs with h | h
  · exact hb.1 s h
  · simpa [List.mem_singleton.mp h] using hx

theorem length_joinPath_gt {base x : String} (hb : PathWF base) (hx : PlainSeg x) :
    base.length < (joinPath base x).length := by
  rw [joinPath_plain hb hx]
  have := length_mkPath_append_one (l := splitPath base) hx.1
  rw [hb.2] at this
  exact this

theorem joinPath_ne_of_wf {base x : String} (hb : PathWF base) (hx : PlainSeg x) :
    joinPath base x ≠ base := by
  intro h
  have := length_joinPath_gt hb hx
  rw [h] at this
  omega

/-! ## Lemmas about the scanner -/

theorem scanChild_isSome_iff (fs : FileSystem) (cf : List String)
    (wtd n : String) :
    (scanChild fs cf wtd n).isSome = linkedEntryReadable fs wtd n := by
  simp only [scanChild, linkedEntryReadable]
  by_cases hd : fs.isDir (joinPath wtd n) = true
  · rw [if_pos hd, hd]
    cases hH : fs.readFile (joinPath (joinPath wtd n) "HEAD") <;>
      cases hG : fs.readFile (joinPath (joinPath wtd n) "gitdir") <;>
        simp [hH, hG]
  · rw [if_neg hd]
    simp only [Bool.not_eq_true] at hd
    simp [hd]

theorem scanChild_isMain {fs : FileSystem} {cf : List String}
    {wtd n : String} {w : IGitWorktree}
    (h : scanChild fs cf wtd n = some w) : w.isMain = false := by
  simp only [scanChild] at h
  split at h
  · split at h
    next => cases h; rfl
    next => cases h
  · cases h

theorem length_filterMap_eq_countP {α β : Type} (f : α → Option β) (l : List α) :
    (l.filterMap f).length = l.countP (fun a => (f a).isSome) := by
  induction l with
  | nil => rfl
  | cons x t ih =>
    cases hx : f x <;>
      simp [List.filterMap_cons, hx, List.countP_cons, ih]

theorem mem_filterMap_scanChild_isMain {fs : FileSystem} {cf : List String}
    {wtd : String} {names : List String} {w : IGitWorktree}
    (h : w ∈ names.filterMap (scanChild fs cf wtd)) : w.isMain = false := by
  obtain ⟨n, _, hn⟩ := List.mem_filterMap.mp h
  exact scanChild_isMain hn

/-- C2: for every tracked repository whose common git directory (`.git` as
a real directory) and `HEAD` are readable and that has N readable linked
worktree entries under `<commonDir>/worktrees/`, the scan returns exactly
N+1 worktree records, of which exactly one — the main checkout, listed
first — has `isMain = true`, and every linked record has `isMain = false`. -/
theorem c2_scan_returns_n_plus_one (fs : FileSystem) (currentFolders : List String)
    (repoPath : String)
    (hgit : fs.statIsDir (joinPath repoPath ".git") = some true)
    (hhead : (fs.readFile (joinPath (joinPath repoPath ".git") "HEAD")).isSome = true) :
    ∃ repo, scanRepository fs currentFolders repoPath = some repo
      ∧ repo.worktrees.length = linkedReadableCount fs repoPath + 1
      ∧ repo.worktrees.countP (fun w => w.isMain) = 1
      ∧ ∃ mainRecord linked, repo.worktrees = mainRecord :: linked
          ∧ mainRecord.isMain = true
          ∧ linked.length = linkedReadableCount fs repoPath
          ∧ ∀ w ∈ linked, w.isMain = false := by
  obtain ⟨headRaw, hH⟩ := Option.isSome_iff_exists.mp hhead
  simp only [scanRepository, hgit, hH]
  set wtd := joinPath (joinPath repoPath ".git") "worktrees" with hwtd
  have hcount : ∀ names, fs.childrenOf wtd = some names →
      (names.filterMap (scanChild fs currentFolders wtd)).length
        = linkedReadableCount fs repoPath := by
    intro names hn
    rw [length_filterMap_eq_countP]
    simp only [linkedReadableCount, ← hwtd, hn]
    exact List.countP_congr (fun n _ => by rw [scanChild_isSome_iff])
  cases hch : fs.childrenOf wtd with
  | none =>
    refine ⟨_, rfl, ?_, ?_, ?_⟩
    · simp [linkedReadableCount, ← hwtd, hch]
    · simp [List.countP_cons]
    · exact ⟨_, [], rfl, rfl, by simp [linkedReadableCount, ← hwtd, hch], by simp⟩
  | some names =>
    refine ⟨_, rfl, ?_, ?_, ?_⟩
    · simp only [List.length_cons, hcount names hch]
    · rw [List.countP_cons]
      have hz : (names.filterMap (scanChild fs currentFolders wtd)).countP
          (fun w => w.isMain) = 0 := by
        rw [List.countP_eq_zero]
        intro w hw
        simp [mem_filterMap_scanChild_isMain hw]
      simp [hz]
    · refine ⟨_, _, rfl, rfl, hcount names hch, ?_⟩
      intro w hw
      exact mem_filterMap_scanChild_isMain hw

/-- Concrete repository with two readable linked worktrees, one of them
with a detached `HEAD`. -/
def fsC2 : FileSystem := ⟨[
  ("/repo", .dir [".git", "src"]),
  ("/repo/.git", .dir ["HEAD", "worktrees"]),
  ("/repo/.git/HEAD", .file "ref: refs/heads/main\n"),
  ("/repo/.git/worktrees", .dir ["wt1", "wt2"]),
  ("/repo/.git/worktrees/wt1", .dir ["HEAD", "gitdir"]),
  ("/repo/.git/worktrees/wt1/HEAD", .file "ref: refs/heads/feature\n"),
  ("/repo/.git/worktrees/wt1/gitdir", .file "/wts/feature/.git\n"),
  ("/repo/.git/worktrees/wt2", .dir ["HEAD", "gitdir"]),
  ("/repo/.git/worktrees/wt2/HEAD", .file "deadbeefcafe\n"),
  ("/repo/.git/worktrees/wt2/gitdir", .file "/wts/two/.git\n")]⟩

/-- Witness for C2 at a concrete repository with two linked worktrees. -/
theorem c2_witness :
    fsC2.statIsDir (joinPath "/repo" ".git") = some true
    ∧ (fsC2.readFile (joinPath (joinPath "/repo" ".git") "HEAD")).isSome = true
    ∧ (∃ repo, scanRepository fsC2 [] "/repo" = some repo
        ∧ repo.worktrees.length = linkedReadableCount fsC2 "/repo" + 1
        ∧ repo.worktrees.countP (fun w => w.isMain) = 1
        ∧ ∃ mainRecord linked, repo.worktrees = mainRecord :: linked
            ∧ mainRecord.isMain = true
            ∧ linked.length = linkedReadableCount fsC2 "/repo"
            ∧ ∀ w ∈ linked, w.isMain = false) :=
  ⟨by decide, by decide, c2_scan_returns_n_plus_one fsC2 [] "/repo" (by decide) (by decide)⟩

/-! ## HEAD parsing (claim C7) -/

theorem strStartsWith_of_longer {s : String}
    (h : strStartsWith s "ref: refs/heads/" = true) :
    strStartsWith s "ref: " = true := by
  unfold strStartsWith at *
  rw [List.isPrefixOf_iff_prefix] at h ⊢
  exact List.IsPrefix.trans (by decide) h

theorem stripAnchoredPrefix_of_not_ref {s : String}
    (h : strStartsWith s "ref: " = false) :
    stripAnchoredPrefix s "ref: refs/heads/" = s := by
  unfold stripAnchoredPrefix
  rw [if_neg]
  intro hcon
  rw [strStartsWith_of_longer hcon] at h
  cases h

/-- C7 counterexample: in `fsC2`, linked entry `wt2` has the detached
`HEAD` content `deadbeefcafe`; the scanned record carries that raw hash in
its `branch` field, which is not empty — refuting "branch is empty/absent
if detached" on this input. -/
theorem c7_counterexample :
    ((scanRepository fsC2 [] "/repo").map
        (fun r => r.worktrees.map (fun w => (w.isDetached, w.branch))))
      = some [(false, "main"), (false, "feature"), (true, "deadbeefcafe")]
    ∧ ("deadbeefcafe" : String) ≠ "" :=
  ⟨by decide, by decide⟩

/-- C7 amended: a scanned worktree whose trimmed `HEAD` content does not
start with `"ref: "` gets `isDetached = true`, and its `branch` field holds
the trimmed raw `HEAD` content (e.g. the commit hash) rather than an empty
string — for linked entries (first part) and for the main record (second
part). -/
theorem c7_detached_branch_holds_raw_head :
    (∀ (fs : FileSystem) (cf : List String) (wtd n headRaw : String)
        (w : IGitWorktree),
      fs.readFile (joinPath (joinPath wtd n) "HEAD") = some headRaw →
      strStartsWith (strTrim headRaw) "ref: " = false →
      scanChild fs cf wtd n = some w →
      w.isDetached = true ∧ w.branch = strTrim headRaw)
    ∧ (∀ (fs : FileSystem) (cf : List String) (repoPath headRaw : String)
        (repo : IGitWorktreeRepository),
      fs.statIsDir (joinPath repoPath ".git") = some true →
      fs.readFile (joinPath (joinPath repoPath ".git") "HEAD") = some headRaw →
      strStartsWith (strTrim headRaw) "ref: " = false →
      scanRepository fs cf repoPath = some repo →
      ∃ mainRecord linked, repo.worktrees = mainRecord :: linked
        ∧ mainRecord.isDetached = true ∧ mainRecord.branch = strTrim headRaw) := by
  constructor
  · intro fs cf wtd n headRaw w hH hdet hw
    by_cases hd : fs.isDir (joinPath wtd n) = true
    · cases hG : fs.readFile (joinPath (joinPath wtd n) "gitdir") with
      | none => simp [scanChild, hH, hG, hd] at hw
      | some g =>
        simp only [scanChild, hH, hG, if_pos hd, Option.some.injEq] at hw
        rw [← hw]
        exact ⟨by simp [hdet], stripAnchoredPrefix_of_not_ref hdet⟩
    · simp [scanChild, hd] at hw
  · intro fs cf repoPath headRaw repo hgit hH hdet hrepo
    simp only [scanRepository, hgit, hH, Option.some.injEq] at hrepo
    rw [← hrepo]
    exact ⟨_, _, rfl, by simp [hdet], stripAnchoredPrefix_of_not_ref hdet⟩

/-- Witness for the amended C7 at the concrete detached entry `wt2`. -/
theorem c7_witness :
    fsC2.readFile (joinPath (joinPath (joinPath (joinPath "/repo" ".git") "worktrees") "wt2") "HEAD")
        = some "deadbeefcafe\n"
    ∧ strStartsWith (strTrim "deadbeefcafe\n") "ref: " = false
    ∧ ∃ w, scanChild fsC2 [] (joinPath (joinPath "/repo" ".git") "worktrees") "wt2" = some w
        ∧ w.isDetached = true ∧ w.branch = strTrim "deadbeefcafe\n" := by
  refine ⟨by decide, by decide, ?_⟩
  obtain ⟨w, hw⟩ := Option.isSome_iff_exists.mp (show (scanChild fsC2 []
    (joinPath (joinPath "/repo" ".git") "worktrees") "wt2").isSome = true by decide)
  exact ⟨w, hw, c7_detached_branch_holds_raw_head.1 fsC2 []
    (joinPath (joinPath "/repo" ".git") "worktrees") "wt2" "deadbeefcafe\n" w
    (by decide) (by decide) hw⟩

/-! ## Claim C4: refresh semantics -/

theorem refreshLoop_eq_filterMap (scan : String → Option IGitWorktreeRepository)
    (l : List String) : refreshLoop scan l = l.filterMap scan := by
  induction l with
  | nil => rfl
  | cons u rest ih =>
    cases hu : scan u <;> simp [refreshLoop, hu, ih, List.filterMap_cons]

/-- C4: `refresh()` rebuilds the repository list purely from the per-repo
scan outcomes over the tracked list — a failing scan (`none`, covering both
a thrown error and an `undefined` result) is omitted while the other
repositories are still scanned and kept in order (`filterMap`); the new
list does not depend on the previous `_repositories` value (wholesale
replacement); and exactly one change notification fires per call. -/
theorem c4_refresh_isolated_failures_one_event
    (scan : String → Option IGitWorktreeRepository) (s : WorktreeServiceState) :
    (refresh scan s).repositories = s.trackedRepoUris.filterMap scan
    ∧ (refresh scan s).changeEvents = s.changeEvents + 1
    ∧ (∀ old : List IGitWorktreeRepository,
        (refresh scan { s with repositories := old }).repositories
          = (refresh scan s).repositories)
    ∧ (refresh scan s).trackedRepoUris = s.trackedRepoUris := by
  refine ⟨refreshLoop_eq_filterMap scan s.trackedRepoUris, rfl, ?_, rfl⟩
  intro old
  rfl

/-! ## Claims C10: batched getWorktrees (`ShellWorktreeService` /
`WebClientServer._handleWorktreeApi`, identical parsing loops) -/

structure IWorktreeInfo where
  path : String
  head : String
  branch : String
  isBare : Bool
deriving DecidableEq, Repr

structure IRepoWorktreeResult where
  repoUri : String
  worktrees : List IWorktreeInfo
  error : Option String
deriving DecidableEq, Repr

/-- Accumulator of the per-block line loop of the porcelain parser. -/
structure PorcelainAcc where
  wtPath : String
  head : String
  branch : String
  isBare : Bool
deriving DecidableEq, Repr

/-- One line of a `git worktree list --porcelain` block (part_007 157-167). -/
def parsePorcelainLine (acc : PorcelainAcc) (line : String) : PorcelainAcc :=
  if strStartsWith line "worktree " then { acc with wtPath := line.drop 9 }
  else if strStartsWith line "HEAD " then { acc with head := line.drop 5 }
  else if strStartsWith line "branch " then { acc with branch := line.drop 7 }
  else if line = "bare" then { acc with isBare := true }
  else acc

/-- One block: entries without a `worktree ` line are dropped (part_007 168-170). -/
def parsePorcelainBlock (block : String) : Option IWorktreeInfo :=
  let a := (block.splitOn "\n").foldl parsePorcelainLine ⟨"", "", "", false⟩
  if a.wtPath = "" then none else some ⟨a.wtPath, a.head, a.branch, a.isBare⟩

/-- Whole porcelain output: blank-line-separated blocks (part_007 150-171). -/
def parsePorcelain (stdout : String) : List IWorktreeInfo :=
  ((stdout.splitOn "\n\n").filter (fun b => ¬ strTrim b = "")).filterMap
    parsePorcelainBlock

/-- `ShellWorktreeService.getWorktrees` (part_007 141-180) and the
line-identical `WebClientServer._handleWorktreeApi` loop (582-656): one
result per requested URI in request order; a failing `git` invocation
(the oracle returning `Except.error`) yields `worktrees := []` plus the
stringified error and never rejects the whole call. -/
def getWorktrees (git : String → Except String String)
    (repoUris : List String) : List IRepoWorktreeResult :=
  repoUris.map (fun repoUri =>
    match git repoUri with
    | Except.ok stdout =>
      { repoUri := repoUri, worktrees := parsePorcelain stdout, error := none }
    | Except.error e =>
      { repoUri := repoUri, worktrees := [], error := some e })

/-- C10: the batched call returns exactly one entry per requested URI, in
request order; an entry whose git invocation fails carries an empty
worktree list together with the error string; the call itself is total
(never rejects). -/
theorem c10_batched_worktrees_per_uri (git : String → Except String String)
    (repoUris : List String) :
    (getWorktrees git repoUris).length = repoUris.length
    ∧ (getWorktrees git repoUris).map (fun r => r.repoUri) = repoUris
    ∧ ∀ u ∈ repoUris, ∀ e, git u = Except.error e →
        ({ repoUri := u, worktrees := [], error := some e } : IRepoWorktreeResult)
          ∈ getWorktrees git repoUris := by
  refine ⟨by simp [getWorktrees], ?_, ?_⟩
  · unfold getWorktrees
    rw [List.map_map]
    have : ∀ u : String,
        ((fun r : IRepoWorktreeResult => r.repoUri) ∘ fun repoUri =>
          match git repoUri with
          | Except.ok stdout =>
            { repoUri := repoUri, worktrees := parsePorcelain stdout, error := none }
          | Except.error e =>
            { repoUri := repoUri, worktrees := [], error := some e }) u = u := by
      intro u
      cases hgu : git u <;> simp [Function.comp, hgu]
    rw [show ((fun r : IRepoWorktreeResult => r.repoUri) ∘ fun repoUri =>
        match git repoUri with
        | Except.ok stdout =>
          ({ repoUri := repoUri, worktrees := parsePorcelain stdout, error := none }
            : IRepoWorktreeResult)
        | Except.error e =>
          { repoUri := repoUri, worktrees := [], error := some e }) = id from
      funext this]
    exact List.map_id repoUris
  · intro u hu e he
    unfold getWorktrees
    refine List.mem_map.mpr ⟨u, hu, ?_⟩
    rw [he]

/-- Witness for C10: two URIs, the second failing. -/
theorem c10_witness :
    (let git : String → Except String String := fun u =>
      if u = "file:///good" then Except.ok "worktree /good\nHEAD abc\n\n"
      else Except.error "boom"
     (getWorktrees git ["file:///good", "file:///bad"]).length = 2
      ∧ (getWorktrees git ["file:///good", "file:///bad"]).map
          (fun r => r.repoUri) = ["file:///good", "file:///bad"]
      ∧ ({ repoUri := "file:///bad", worktrees := [], error := some "boom" }
          : IRepoWorktreeResult) ∈ getWorktrees git ["file:///good", "file:///bad"]) := by
  have h := c10_batched_worktrees_per_uri (fun u =>
    if u = "file:///good" then Except.ok "worktree /good\nHEAD abc\n\n"
    else Except.error "boom") ["file:///good", "file:///bad"]
  exact ⟨h.1, h.2.1, h.2.2 "file:///bad" (by decide) "boom" (by rfl)⟩

/-! ## Claim C6: settings round-trip -/

structure IShellSettings where
  trackedRepositories : List String
  lastBrowsePath : String
deriving DecidableEq, Repr

def emptyShellSettings : IShellSettings := ⟨[], ""⟩

/-- `ShellWorktreeService.loadSettings` (part_007 107-114): read and
`JSON.parse` the settings file, returning the empty defaults on any
failure. The stored JSON document is modeled by the settings value it
denotes (`JSON.parse ∘ JSON.stringify` is the identity on this record of
strings). -/
def loadSettingsElectron (file : Option IShellSettings) : IShellSettings :=
  file.getD emptyShellSettings

/-- `ShellWorktreeService.saveSettings` (part_007 116-124): overwrite the
settings file with `JSON.stringify(settings)`. -/
def saveSettingsElectron (_file : Option IShellSettings)
    (s : IShellSettings) : Option IShellSettings :=
  some s

/-- Routes of `WebClientServer.handle` (webClientServer.ts 125-177), in
dispatch order; anything unrouted is answered 404 (line 170). -/
inductive ServerRoute
  | statics | root | shell | apiWorktrees | apiBrowse | apiClone
  | apiWorktreeRemove | apiWorktreeAdd | apiBranches | callback
  | webExtensionResource | notFound
deriving DecidableEq, Repr

def charAt (s : String) (i : Nat) : Option Char := s.data.get? i

def routeOf (pathname : String) : ServerRoute :=
  if strStartsWith pathname "/static" ∧ charAt pathname 7 = some '/' then .statics
  else if pathname = "/" then .root
  else if pathname = "/shell" then .shell
  else if pathname = "/api/worktrees" then .apiWorktrees
  else if pathname = "/api/browse" then .apiBrowse
  else if pathname = "/api/clone" then .apiClone
  else if pathname = "/api/worktree-remove" then .apiWorktreeRemove
  else if pathname = "/api/worktree-add" then .apiWorktreeAdd
  else if pathname = "/api/branches" then .apiBranches
  else if pathname = "/callback" then .callback
  else if strStartsWith pathname "/web-extension-resource"
      ∧ charAt pathname 23 = some '/' then .webExtensionResource
  else .notFound

/-- The web client `loadSettings` (shell.ts 117-124): a non-ok response
(modeled as `none`) yields the empty defaults. -/
def loadSettingsWeb (response : Option IShellSettings) : IShellSettings :=
  response.getD emptyShellSettings

/-- The server response body for a `GET /api/shell-settings` issued by the
web client `loadSettings`: the dispatch of `handle` has no route for this
pathname (it falls through to the 404 of line 170), and no existing route
ever produces a settings document (the API routes are POST-only), so no
settings payload is ever returned. -/
def serverSettingsResponse : Option IShellSettings :=
  match routeOf "/api/shell-settings" with
  | ServerRoute.notFound => none
  | _ => none

/-- C6 counterexample: in the web embedding, after
`saveSettings({trackedRepositories := ["file:///a", "file:///b"], ...})`
(a POST to the unrouted `/api/shell-settings`, answered 404 and ignored),
`loadSettings()` returns the empty defaults — not the two URIs. -/
theorem c6_counterexample :
    routeOf "/api/shell-settings" = ServerRoute.notFound
    ∧ (loadSettingsWeb serverSettingsResponse).trackedRepositories = []
    ∧ ([] : List String) ≠ ["file:///a", "file:///b"] :=
  ⟨by decide, rfl, by decide⟩

/-- C6 amended: the save/load round-trip holds for the Electron
settings-file backend (the same URIs come back in the same order), but in
the web embedding the server has no `/api/shell-settings` route, so
`loadSettings()` always yields the empty defaults regardless of any prior
`saveSettings`. -/
theorem c6_settings_roundtrip_electron_only :
    (∀ (file : Option IShellSettings) (s : IShellSettings),
      loadSettingsElectron (saveSettingsElectron file s) = s
      ∧ (loadSettingsElectron (saveSettingsElectron file s)).trackedRepositories
          = s.trackedRepositories)
    ∧ routeOf "/api/shell-settings" = ServerRoute.notFound
    ∧ loadSettingsWeb serverSettingsResponse = emptyShellSettings := by
  refine ⟨fun file s => ⟨rfl, rfl⟩, by decide, rfl⟩

/-! ## View multiplexer

Web embedding: `createWebBackend.switchToWorktree` (shell.ts 135-179) over
the `iframes` map and `iframeLRU` list, with `MAX_IFRAMES = 5` (line 71).
JS `Map`s preserve insertion order and have unique keys; they are modeled
as association lists, and each created iframe element gets a fresh `Nat`
identity so that reuse vs. re-creation is observable. -/

def assocLookup {κ ν : Type} [DecidableEq κ] : List (κ × ν) → κ → Option ν
  | [], _ => none
  | kv :: rest, k => if kv.1 = k then some kv.2 else assocLookup rest k

def assocErase {κ ν : Type} [DecidableEq κ] : List (κ × ν) → κ → List (κ × ν)
  | [], _ => []
  | kv :: rest, k => if kv.1 = k then assocErase rest k else kv :: assocErase rest k

/-- JS `Map.set`: update in place when the key exists, else append. -/
def assocSet {κ ν : Type} [DecidableEq κ] (m : List (κ × ν)) (k : κ) (v : ν) :
    List (κ × ν) :=
  if (assocLookup m k).isSome then
    m.map (fun kv => if kv.1 = k then (k, v) else kv)
  else m ++ [(k, v)]

/-- JS `indexOf` + `splice(idx, 1)`: remove the first occurrence. -/
def eraseFirst : List String → String → List String
  | [], _ => []
  | x :: rest, p => if x = p then rest else x :: eraseFirst rest p

def MAX_IFRAMES : Nat := 5

structure WebShellViews where
  iframes : List (String × Nat)
  lru : List String
  nextId : Nat
deriving DecidableEq, Repr

/-- The `while (iframes.size >= MAX_IFRAMES && iframeLRU.length > 0)` loop
(shell.ts 152-159): shift the LRU head and delete its iframe if present. -/
def evictLoop (maxViews : Nat) : List String → List (String × Nat) →
    List String × List (String × Nat)
  | [], m => ([], m)
  | evictPath :: rest, m =>
    if maxViews ≤ m.length then
      evictLoop maxViews rest (assocErase m evictPath)
    else (evictPath :: rest, m)

/-- `createWebBackend.switchToWorktree` (shell.ts 135-179), parameterized
by the capacity constant: an existing iframe is unhidden and moved to the
most-recently-used end of the LRU; otherwise the eviction loop runs and a
fresh iframe (fresh identity) is created and appended to map and LRU.
The initial hide-all and the URL update carry no model state. -/
def switchBackendWeb (maxViews : Nat) (s : WebShellViews) (path : String) :
    WebShellViews :=
  match assocLookup s.iframes path with
  | some _ =>
    { s with lru := eraseFirst s.lru path ++ [path] }
  | none =>
    let ev := evictLoop maxViews s.lru s.iframes
    { iframes := ev.2 ++ [(path, s.nextId)],
      lru := ev.1 ++ [path],
      nextId := s.nextId + 1 }

/-- The `shell.activeView` postMessages delivered to iframes by one web
`switchToWorktree` call: the translated statements (toggle the `hidden`
CSS class on every iframe, update map/LRU, rewrite the browser URL)
contain no `postMessage` to any iframe, so no signal is delivered on any
activation or deactivation edge. -/
def switchBackendWebSignals (_s : WebShellViews) (_path : String) :
    List (Nat × Bool) := []

structure WebShellState where
  views : WebShellViews
  activePath : Option String
deriving DecidableEq, Repr

def webShellInit : WebShellState := ⟨⟨[], [], 0⟩, none⟩

/-- `ShellApplication.switchToWorktree` (shell.ts 1236-1256): no-op when
the path is already active, otherwise record it active and call the
backend. -/
def switchToWorktreeApp (maxViews : Nat) (s : WebShellState) (path : String) :
    WebShellState :=
  if s.activePath = some path then s
  else { views := switchBackendWeb maxViews s.views path,
         activePath := some path }

/-! Native embedding: `ShellViewManager` (shellViewManager.ts), views keyed
by the string `` `${windowId}:${folderPath}` ``, each `WebContentsView`
given a fresh `Nat` identity standing for its `webContents`. Messages are
the `vscode:shellActiveView` sends as (view identity, active flag). -/

structure ShellViewMgrState where
  views : List (String × Nat)
  activeViews : List (Nat × String)
  nextViewId : Nat
deriving DecidableEq, Repr

def viewKey (windowId : Nat) (folderPath : String) : String :=
  toString windowId ++ ":" ++ folderPath

def shellViewMgrInit : ShellViewMgrState := ⟨[], [], 0⟩

/-- `ShellViewManager.activateWorktree` (lines 113-145): bail out if the
window is gone; hide every view of this window and send it
`activeView(false)`; create the view if absent — with no capacity check
and no eviction of any kind — then show it, send it `activeView(true)`
and record it as the window's active view. (Config plumbing, bounds and
counters carry no model state.) -/
def activateWorktree (windows : List Nat) (s : ShellViewMgrState)
    (windowId : Nat) (folderPath : String) :
    ShellViewMgrState × List (Nat × Bool) :=
  if windowId ∈ windows then
    let hideMsgs := (s.views.filter
      (fun kv => strStartsWith kv.1 (toString windowId ++ ":"))).map
      (fun kv => (kv.2, false))
    match assocLookup s.views (viewKey windowId folderPath) with
    | some vid =>
      ({ s with activeViews := assocSet s.activeViews windowId folderPath },
        hideMsgs ++ [(vid, true)])
    | none =>
      ({ views := s.views ++ [(viewKey windowId folderPath, s.nextViewId)],
         activeViews := assocSet s.activeViews windowId folderPath,
         nextViewId := s.nextViewId + 1 },
        hideMsgs ++ [(s.nextViewId, true)])
  else (s, [])

/-- `ShellViewManager.removeView` (lines 173-194): close and drop the view
and clear the active marker if it was active; no `activeView` signal is
sent on this destruction edge (the `webContents.close` is not one). -/
def removeView (s : ShellViewMgrState) (windowId : Nat) (folderPath : String) :
    ShellViewMgrState × List (Nat × Bool) :=
  match assocLookup s.views (viewKey windowId folderPath) with
  | none => (s, [])
  | some _ =>
    ({ views := assocErase s.views (viewKey windowId folderPath),
       activeViews :=
         if assocLookup s.activeViews windowId = some folderPath then
           assocErase s.activeViews windowId
         else s.activeViews,
       nextViewId := s.nextViewId }, [])

/-- Run a sequence of worktree activations against the web shell,
starting from the empty application state. -/
def webAfter (maxViews : Nat) (paths : List String) : WebShellState :=
  paths.foldl (switchToWorktreeApp maxViews) webShellInit

/-- C3: with capacity 2 (the spec's `MAX_VIEWS = 2` instantiation of the
`MAX_IFRAMES` capacity parameter), activating distinct paths a, b, c
destroys a's iframe (the least-recently-used) when c's is created, while
b's and c's iframes survive with their identities (1 and 2) intact; a
subsequent activation of a creates a brand-new iframe (fresh identity 3,
not the evicted identity 0). -/
theorem c3_lru_eviction_capacity_two (a b c : String)
    (hab : a ≠ b) (hac : a ≠ c) (hbc : b ≠ c) :
    assocLookup (webAfter 2 [a, b]).views.iframes a = some 0
    ∧ assocLookup (webAfter 2 [a, b, c]).views.iframes a = none
    ∧ assocLookup (webAfter 2 [a, b, c]).views.iframes b = some 1
    ∧ assocLookup (webAfter 2 [a, b, c]).views.iframes c = some 2
    ∧ assocLookup (webAfter 2 [a, b, c, a]).views.iframes a = some 3 := by
  have hba := Ne.symm hab
  have hca := Ne.symm hac
  have hcb := Ne.symm hbc
  have h2 : webAfter 2 [a, b] = ⟨⟨[(a, 0), (b, 1)], [a, b], 2⟩, some b⟩ := by
    simp [webAfter, switchToWorktreeApp, switchBackendWeb, evictLoop,
      assocLookup, assocErase, eraseFirst, webShellInit, hab, hba]
  have h3 : webAfter 2 [a, b, c] = ⟨⟨[(b, 1), (c, 2)], [b, c], 3⟩, some c⟩ := by
    have : webAfter 2 [a, b, c]
        = switchToWorktreeApp 2 (webAfter 2 [a, b]) c := rfl
    rw [this, h2]
    simp [switchToWorktreeApp, switchBackendWeb, evictLoop,
      assocLookup, assocErase, eraseFirst, hac, hca, hbc, hcb, hab, hba]
  have h4 : webAfter 2 [a, b, c, a] = ⟨⟨[(c, 2), (a, 3)], [c, a], 4⟩, some a⟩ := by
    have : webAfter 2 [a, b, c, a]
        = switchToWorktreeApp 2 (webAfter 2 [a, b, c]) a := rfl
    rw [this, h3]
    simp [switchToWorktreeApp, switchBackendWeb, evictLoop,
      assocLookup, assocErase, eraseFirst, hab, hba, hac, hca, hbc, hcb]
  rw [h2, h3, h4]
  simp [assocLookup, hab, hba, hac, hca, hbc, hcb]

/-- Witness for C3 at the concrete paths `/a`, `/b`, `/c`. -/
theorem c3_witness :
    ("/a" : String) ≠ "/b" ∧ ("/a" : String) ≠ "/c" ∧ ("/b" : String) ≠ "/c"
    ∧ (assocLookup (webAfter 2 ["/a", "/b"]).views.iframes "/a" = some 0
      ∧ assocLookup (webAfter 2 ["/a", "/b", "/c"]).views.iframes "/a" = none
      ∧ assocLookup (webAfter 2 ["/a", "/b", "/c"]).views.iframes "/b" = some 1
      ∧ assocLookup (webAfter 2 ["/a", "/b", "/c"]).views.iframes "/c" = some 2
      ∧ assocLookup (webAfter 2 ["/a", "/b", "/c", "/a"]).views.iframes "/a" = some 3) :=
  ⟨by decide, by decide, by decide,
    c3_lru_eviction_capacity_two "/a" "/b" "/c" (by decide) (by decide) (by decide)⟩

/-- C8: evaluated at the failing input (activate `/a`, then `/b`). In the
web embedding the backend `switchToWorktree` delivers no `shell.activeView`
message to `/a`'s iframe on its Visible→Hidden edge (first conjunct),
although the view-side listeners only observe that message; the native
`activateWorktree` does deliver `activeView(false)` to the hidden view and
`activeView(true)` to the shown one (second conjunct), but its destruction
path `removeView` emits no signal either (third conjunct). -/
theorem c8_web_emits_no_deactivation_signal :
    switchBackendWebSignals (switchToWorktreeApp MAX_IFRAMES webShellInit "/a").views "/b" = []
    ∧ (activateWorktree [1] ((activateWorktree [1] shellViewMgrInit 1 "/a").1) 1 "/b").2
        = [(0, false), (1, true)]
    ∧ (removeView ((activateWorktree [1] shellViewMgrInit 1 "/a").1) 1 "/a").2 = [] :=
  ⟨rfl, by decide, by decide⟩

/-! ## Claim C9: capacity bound -/

/-- Native manager state after activating six distinct worktrees in one
window. -/
def nativeSixViews : ShellViewMgrState :=
  (["/p1", "/p2", "/p3", "/p4", "/p5", "/p6"].foldl
    (fun s p => (activateWorktree [1] s 1 p).1) shellViewMgrInit)

/-- C9 counterexample: the native embedding enforces no capacity bound —
after activating six distinct worktrees, six views are live, exceeding
`MAX_VIEWS = 5`. -/
theorem c9_counterexample :
    nativeSixViews.views.length = 6
    ∧ ¬ nativeSixViews.views.length ≤ MAX_IFRAMES :=
  ⟨by decide, by decide⟩

/-- Consistency of the web backend's `iframes` map and `iframeLRU` list:
no duplicates on either side and the same membership (hence length). -/
def lruWF (m : List (String × Nat)) (lru : List String) : Prop :=
  lru.Nodup ∧ (m.map Prod.fst).Nodup
  ∧ (∀ p ∈ lru, p ∈ m.map Prod.fst)
  ∧ (∀ p ∈ m.map Prod.fst, p ∈ lru)
  ∧ m.length = lru.length

instance (m : List (String × Nat)) (lru : List String) :
    Decidable (lruWF m lru) := by
  unfold lruWF; infer_instance

theorem assocLookup_isSome_iff {ν : Type} (m : List (String × ν)) (k : String) :
    (assocLookup m k).isSome = true ↔ k ∈ m.map Prod.fst := by
  induction m with
  | nil => simp [assocLookup]
  | cons kv rest ih =>
    by_cases h : kv.1 = k
    · simp [assocLookup, h]
    · simp [assocLookup, h, ih, Ne.symm h]

theorem assocLookup_append_left {ν : Type} {m : List (String × ν)} {k : String}
    (h : (assocLookup m k).isSome = true) (l : List (String × ν)) :
    assocLookup (m ++ l) k = assocLookup m k := by
  induction m with
  | nil => simp [assocLookup] at h
  | cons kv rest ih =>
    by_cases hk : kv.1 = k
    · simp [assocLookup, hk]
    · rw [List.cons_append]
      simp only [assocLookup, if_neg hk] at h ⊢
      exact ih h

theorem mem_keys_assocErase {ν : Type} {m : List (String × ν)} {k p : String} :
    p ∈ (assocErase m k).map Prod.fst ↔ p ∈ m.map Prod.fst ∧ p ≠ k := by
  induction m with
  | nil => simp [assocErase]
  | cons kv rest ih =>
    by_cases h : kv.1 = k
    · simp only [assocErase, if_pos h, ih, List.map_cons, List.mem_cons]
      constructor
      · rintro ⟨hm, hp⟩
        exact ⟨Or.inr hm, hp⟩
      · rintro ⟨hm | hm, hp⟩
        · exact absurd (hm.trans h) hp
        · exact ⟨hm, hp⟩
    · simp only [assocErase, if_neg h, List.map_cons, List.mem_cons, ih]
      constructor
      · rintro (hp | ⟨hm, hp⟩)
        · exact ⟨Or.inl hp, fun hc => h (hp ▸ hc)⟩
        · exact ⟨Or.inr hm, hp⟩
      · rintro ⟨hp | hm, hpk⟩
        · exact Or.inl hp
        · exact Or.inr ⟨hm, hpk⟩

theorem nodup_keys_assocErase {ν : Type} {m : List (String × ν)} {k : String}
    (h : (m.map Prod.fst).Nodup) : ((assocErase m k).map Prod.fst).Nodup := by
  induction m with
  | nil => simp [assocErase]
  | cons kv rest ih =>
    simp only [List.map_cons, List.nodup_cons] at h
    by_cases hk : kv.1 = k
    · simp only [assocErase, if_pos hk]
      exact ih h.2
    · simp only [assocErase, if_neg hk, List.map_cons, List.nodup_cons]
      refine ⟨fun hc => ?_, ih h.2⟩
      exact h.1 (mem_keys_assocErase.mp hc).1

theorem assocErase_of_not_mem {ν : Type} {m : List (String × ν)} {k : String}
    (h : k ∉ m.map Prod.fst) : assocErase m k = m := by
  induction m with
  | nil => rfl
  | cons kv rest ih =>
    simp only [List.map_cons, List.mem_cons] at h
    push_neg at h
    have hne : kv.1 ≠ k := fun hc => h.1 hc.symm
    simp only [assocErase, if_neg hne]
    rw [ih h.2]

theorem length_assocErase_of_mem {ν : Type} {m : List (String × ν)} {k : String}
    (hnd : (m.map Prod.fst).Nodup) (hmem : k ∈ m.map Prod.fst) :
    (assocErase m k).length + 1 = m.length := by
  induction m with
  | nil => simp at hmem
  | cons kv rest ih =>
    simp only [List.map_cons, List.nodup_cons] at hnd
    by_cases hk : kv.1 = k
    · simp only [assocErase, if_pos hk]
      rw [assocErase_of_not_mem (hk ▸ hnd.1)]
      simp
    · simp only [List.map_cons, List.mem_cons] at hmem
      rcases hmem with hmem | hmem
      · exact absurd hmem.symm hk
      · simp only [assocErase, if_neg hk, List.length_cons]
        rw [← ih hnd.2 hmem]

/-- The eviction loop preserves map/LRU consistency and, starting from a
consistent pair, always stops with strictly fewer than `maxV` live
iframes (for positive `maxV`), making room for the new iframe. -/
theorem evictLoop_wf_and_bound (maxV : Nat) (hpos : 1 ≤ maxV) :
    ∀ (lru : List String) (m : List (String × Nat)), lruWF m lru →
      lruWF (evictLoop maxV lru m).2 (evictLoop maxV lru m).1
      ∧ (evictLoop maxV lru m).2.length < maxV := by
  intro lru
  induction lru with
  | nil =>
    intro m hwf
    have hm : m.length = 0 := by
      rw [hwf.2.2.2.2]
      rfl
    refine ⟨hwf, ?_⟩
    simp only [evictLoop, hm]
    omega
  | cons e rest ih =>
    intro m hwf
    obtain ⟨hndL, hndK, hLK, hKL, hlen⟩ := hwf
    by_cases hcap : maxV ≤ m.length
    · have heK : e ∈ m.map Prod.fst := hLK e (by simp)
      have hwf' : lruWF (assocErase m e) rest := by
        refine ⟨hndL.of_cons, nodup_keys_assocErase hndK, ?_, ?_, ?_⟩
        · intro p hp
          refine mem_keys_assocErase.mpr ⟨hLK p (by simp [hp]), ?_⟩
          intro hpe
          rw [hpe] at hp
          exact (List.nodup_cons.mp hndL).1 hp
        · intro p hp
          obtain ⟨hpm, hpe⟩ := mem_keys_assocErase.mp hp
          rcases List.mem_cons.mp (hKL p hpm) with h | h
          · exact absurd h hpe
          · exact h
        · have := length_assocErase_of_mem hndK heK
          simp only [List.length_cons] at hlen
          omega
      have hstep : evictLoop maxV (e :: rest) m
          = evictLoop maxV rest (assocErase m e) := by
        simp [evictLoop, hcap]
      rw [hstep]
      exact ih (assocErase m e) hwf'
    · have hstep : evictLoop maxV (e :: rest) m = (e :: rest, m) := by
        simp [evictLoop, hcap]
      rw [hstep]
      refine ⟨⟨hndL, hndK, hLK, hKL, hlen⟩, ?_⟩
      show m.length < maxV
      omega

theorem mem_of_getLast?_eq {α : Type} {l : List α} {v : α}
    (h : l.getLast? = some v) : v ∈ l := by
  obtain ⟨hne, heq⟩ := List.mem_getLast?_eq_getLast (Option.mem_def.mpr h)
  rw [heq]
  exact List.getLast_mem hne

theorem getLast?_cons_of_ne_nil {α : Type} {a : α} {l : List α} (h : l ≠ []) :
    (a :: l).getLast? = l.getLast? := by
  cases l with
  | nil => exact absurd rfl h
  | cons b t => simp [List.getLast?_cons_cons]

/-- The last element of the LRU list (the most recently activated path —
the currently visible view) survives the eviction loop whenever the
capacity is at least 2 and the map was within capacity. -/
theorem evictLoop_spares_last (maxV : Nat) (h2 : 2 ≤ maxV) :
    ∀ (lru : List String) (m : List (String × Nat)) (v : String),
      lruWF m lru → lru.getLast? = some v → m.length ≤ maxV →
      (assocLookup (evictLoop maxV lru m).2 v).isSome = true := by
  intro lru
  induction lru with
  | nil =>
    intro m v _ hlast _
    simp at hlast
  | cons e rest ih =>
    intro m v hwf hlast hle
    obtain ⟨hndL, hndK, hLK, hKL, hlen⟩ := hwf
    by_cases hcap : maxV ≤ m.length
    · have hrest : rest ≠ [] := by
        intro hnil
        rw [hnil] at hlen
        simp at hlen
        omega
      have hstep : evictLoop maxV (e :: rest) m
          = evictLoop maxV rest (assocErase m e) := by
        simp [evictLoop, hcap]
      rw [hstep]
      have hwf' : lruWF (assocErase m e) rest := by
        have heK : e ∈ m.map Prod.fst := hLK e (by simp)
        refine ⟨hndL.of_cons, nodup_keys_assocErase hndK, ?_, ?_, ?_⟩
        · intro p hp
          refine mem_keys_assocErase.mpr ⟨hLK p (by simp [hp]), ?_⟩
          intro hpe
          rw [hpe] at hp
          exact (List.nodup_cons.mp hndL).1 hp
        · intro p hp
          obtain ⟨hpm, hpe⟩ := mem_keys_assocErase.mp hp
          rcases List.mem_cons.mp (hKL p hpm) with h | h
          · exact absurd h hpe
          · exact h
        · have := length_assocErase_of_mem hndK heK
          simp only [List.length_cons] at hlen
          omega
      refine ih (assocErase m e) v hwf' ?_ ?_
      · rw [← getLast?_cons_of_ne_nil hrest]
        exact hlast
      · have heK : e ∈ m.map Prod.fst := hLK e (by simp)
        have := length_assocErase_of_mem hndK heK
        omega
    · have hstep : evictLoop maxV (e :: rest) m = (e :: rest, m) := by
        simp [evictLoop, hcap]
      rw [hstep]
      refine (assocLookup_isSome_iff m v).mpr (hLK v ?_)
      exact mem_of_getLast?_eq hlast

/-- C9 amended: the `MAX_VIEWS` capacity bound and the
visible-view-exemption hold in the web-iframe embedding only: starting
from a consistent state within capacity, `switchToWorktree` leaves at most
`MAX_IFRAMES = 5` live iframes (the bound enforced at creation), and the
most recently activated path — the currently visible iframe, at the
most-recently-used end of the LRU — is never the eviction victim. The
native embedding enforces no bound at all (see the counterexample). -/
theorem c9_web_bound_and_visible_exempt (s : WebShellViews) (p v : String)
    (hwf : lruWF s.iframes s.lru) (hbound : s.iframes.length ≤ MAX_IFRAMES) :
    (switchBackendWeb MAX_IFRAMES s p).iframes.length ≤ MAX_IFRAMES
    ∧ (s.lru.getLast? = some v →
        (assocLookup (switchBackendWeb MAX_IFRAMES s p).iframes v).isSome = true) := by
  unfold switchBackendWeb
  cases hp : assocLookup s.iframes p with
  | some vid =>
    refine ⟨hbound, ?_⟩
    intro hlast
    exact (assocLookup_isSome_iff _ v).mpr
      (hwf.2.2.1 v (mem_of_getLast?_eq hlast))
  | none =>
    have hev := evictLoop_wf_and_bound MAX_IFRAMES (by decide) s.lru s.iframes hwf
    constructor
    · simp only [List.length_append, List.length_cons, List.length_nil]
      omega
    · intro hlast
      have hsurv := evictLoop_spares_last MAX_IFRAMES (by decide)
        s.lru s.iframes v hwf hlast hbound
      rw [assocLookup_append_left hsurv]
      exact hsurv

/-- Witness for the amended C9 at a concrete two-iframe state. -/
theorem c9_witness :
    lruWF ([("/a", 0), ("/b", 1)]) ["/a", "/b"]
    ∧ ([("/a", 0), ("/b", 1)] : List (String × Nat)).length ≤ MAX_IFRAMES
    ∧ ((switchBackendWeb MAX_IFRAMES ⟨[("/a", 0), ("/b", 1)], ["/a", "/b"], 2⟩ "/c").iframes.length ≤ MAX_IFRAMES
      ∧ ((["/a", "/b"] : List String).getLast? = some "/b" →
          (assocLookup (switchBackendWeb MAX_IFRAMES ⟨[("/a", 0), ("/b", 1)], ["/a", "/b"], 2⟩ "/c").iframes "/b").isSome = true)) :=
  ⟨by decide, by decide,
    c9_web_bound_and_visible_exempt ⟨[("/a", 0), ("/b", 1)], ["/a", "/b"], 2⟩
      "/c" "/b" (by decide) (by decide)⟩

/-! ## Claim C5: removing a worktree whose working directory is gone -/

structure GitRepoState where
  adminEntries : List (String × String)
  presentDirs : List String
  dirtyDirs : List String
deriving DecidableEq, Repr

structure RemoveResult where
  success : Bool
  error : Option String
deriving DecidableEq, Repr

/-- Models the external `git worktree remove [--force]` subcommand that
`ShellWorktreeService.removeWorktree` (part_007 198-205, with `--force`)
and `WebClientServer._handleWorktreeRemoveApi` (716-761, without) shell
out to. `adminEntries` are the `worktrees/<name>` records paired with the
working-directory path; paths with no record are rejected; a present,
dirty working tree is rejected without `--force`; otherwise the working
directory (when present) and the administrative entry are removed. A
missing working directory passes validation both with and without
`--force` (git documents and implements missing-ok validation; verified
against git 2.39). -/
def gitWorktreeRemove (force : Bool) (st : GitRepoState) (path : String) :
    Except String GitRepoState :=
  if st.adminEntries.any (fun e => e.2 = path) then
    if path ∈ st.presentDirs ∧ path ∈ st.dirtyDirs ∧ force = false then
      Except.error "contains modified or untracked files, use --force to delete it"
    else
      Except.ok
        { adminEntries := st.adminEntries.filter (fun e => ¬ e.2 = path),
          presentDirs := st.presentDirs.filter (fun p => ¬ p = path),
          dirtyDirs := st.dirtyDirs.filter (fun p => ¬ p = path) }
  else Except.error "is not a working tree"

/-- `ShellWorktreeService.removeWorktree`: `git worktree remove --force`,
success/error mapped to the structured result. -/
def shellRemoveWorktree (st : GitRepoState) (worktreePath : String) :
    RemoveResult × GitRepoState :=
  match gitWorktreeRemove true st worktreePath with
  | Except.ok st2 => (⟨true, none⟩, st2)
  | Except.error e => (⟨false, some e⟩, st)

/-- `WebClientServer._handleWorktreeRemoveApi`: `git worktree remove`
without `--force`, success/error mapped to the JSON `{success, error}`. -/
def handleWorktreeRemoveApi (st : GitRepoState) (worktreePath : String) :
    RemoveResult × GitRepoState :=
  match gitWorktreeRemove false st worktreePath with
  | Except.ok st2 => (⟨true, none⟩, st2)
  | Except.error e => (⟨false, some e⟩, st)

/-- C5: removing a non-main worktree whose working directory is already
absent reports success and still removes the administrative
`worktrees/<entry>`, in each embedding: the browser manual-filesystem path
(the deleted set is exactly the administrative entry; the missing
directory's deletion failure is swallowed), the Electron IPC backend
(`--force`), and the web HTTP endpoint (no `--force`). -/
theorem c5_remove_tolerates_missing_workdir
    (fs : FileSystem) (repos : List IGitWorktreeRepository)
    (repo : IGitWorktreeRepository) (wUri entryPath : String)
    (names : List String) (gitSt : GitRepoState) (ename : String)
    (hfind : repos.find? (fun r => r.worktrees.any (fun w => w.uri = wUri)) = some repo)
    (hchildren : fs.childrenOf
      (joinPath (resolveGitDir fs (joinPath repo.rootUri ".git")) "worktrees")
      = some names)
    (hentry : findWorktreeEntry fs
      (joinPath (resolveGitDir fs (joinPath repo.rootUri ".git")) "worktrees")
      names wUri = some entryPath)
    (hgone : fs.pathExists wUri = false)
    (hadmin : (ename, wUri) ∈ gitSt.adminEntries)
    (hgone2 : wUri ∉ gitSt.presentDirs) :
    removeWorktree fs repos wUri = Except.ok [entryPath]
    ∧ (shellRemoveWorktree gitSt wUri).1.success = true
    ∧ (∀ e ∈ (shellRemoveWorktree gitSt wUri).2.adminEntries, e.2 ≠ wUri)
    ∧ (handleWorktreeRemoveApi gitSt wUri).1.success = true
    ∧ (∀ e ∈ (handleWorktreeRemoveApi gitSt wUri).2.adminEntries, e.2 ≠ wUri) := by
  have hany : gitSt.adminEntries.any (fun e => decide (e.2 = wUri)) = true :=
    List.any_eq_true.mpr ⟨(ename, wUri), hadmin, by simp⟩
  have hnotdirty : ¬ (wUri ∈ gitSt.presentDirs ∧ wUri ∈ gitSt.dirtyDirs
      ∧ false = false) := fun hc => hgone2 hc.1
  have hgitT : gitWorktreeRemove true gitSt wUri = Except.ok
      { adminEntries := gitSt.adminEntries.filter (fun e => ¬ e.2 = wUri),
        presentDirs := gitSt.presentDirs.filter (fun p => ¬ p = wUri),
        dirtyDirs := gitSt.dirtyDirs.filter (fun p => ¬ p = wUri) } := by
    unfold gitWorktreeRemove
    rw [if_pos hany, if_neg (fun hc => hgone2 hc.1)]
  have hgitF : gitWorktreeRemove false gitSt wUri = Except.ok
      { adminEntries := gitSt.adminEntries.filter (fun e => ¬ e.2 = wUri),
        presentDirs := gitSt.presentDirs.filter (fun p => ¬ p = wUri),
        dirtyDirs := gitSt.dirtyDirs.filter (fun p => ¬ p = wUri) } := by
    unfold gitWorktreeRemove
    rw [if_pos hany, if_neg hnotdirty]
  have hfilter : ∀ e ∈ gitSt.adminEntries.filter (fun e => ¬ e.2 = wUri),
      e.2 ≠ wUri := by
    intro e he
    have := List.of_mem_filter he
    simpa using this
  refine ⟨?_, ?_, ?_, ?_, ?_⟩
  · simp only [removeWorktree, hfind, hchildren, hentry, hgone]
    rfl
  · simp [shellRemoveWorktree, hgitT]
  · simp only [shellRemoveWorktree, hgitT]
    exact hfilter
  · simp [handleWorktreeRemoveApi, hgitF]
  · simp only [handleWorktreeRemoveApi, hgitF]
    exact hfilter

/-- Non-main linked record of `fsC2`'s `wt1` whose working directory
`/wts/feature` is absent from `fsC2`. -/
def repoC5 : IGitWorktreeRepository :=
  { rootUri := "/repo", name := "repo",
    worktrees := [
      { name := "repo", path := "/repo", uri := "/repo", branch := "main",
        isCurrent := false, isMain := true, isDetached := false },
      { name := "wt1", path := "/wts/feature", uri := "/wts/feature",
        branch := "feature", isCurrent := false, isMain := false,
        isDetached := false }] }

def gitStC5 : GitRepoState :=
  { adminEntries := [("wt1", "/wts/feature")], presentDirs := ["/repo"],
    dirtyDirs := [] }

/-- Witness for C5 at a concrete state with the working directory gone. -/
theorem c5_witness :
    removeWorktree fsC2 [repoC5] "/wts/feature"
        = Except.ok ["/repo/.git/worktrees/wt1"]
    ∧ (shellRemoveWorktree gitStC5 "/wts/feature").1.success = true
    ∧ (∀ e ∈ (shellRemoveWorktree gitStC5 "/wts/feature").2.adminEntries,
        e.2 ≠ "/wts/feature")
    ∧ (handleWorktreeRemoveApi gitStC5 "/wts/feature").1.success = true
    ∧ (∀ e ∈ (handleWorktreeRemoveApi gitStC5 "/wts/feature").2.adminEntries,
        e.2 ≠ "/wts/feature") :=
  c5_remove_tolerates_missing_workdir fsC2 [repoC5] repoC5 "/wts/feature"
    "/repo/.git/worktrees/wt1" ["wt1", "wt2"] gitStC5 "wt1"
    (by decide) (by decide) (by decide) (by decide) (by decide) (by decide)

/-! ## Claim C1: the main worktree is excluded and the repository root
survives every removal -/

theorem resolveGitDir_of_dir {fs : FileSystem} {g : String}
    (h : fs.statIsDir g = some true) : resolveGitDir fs g = g := by
  unfold resolveGitDir
  rw [h]

theorem lookupEntries_mem {p : String} {e : FsEntry} :
    ∀ {l : List (String × FsEntry)}, lookupEntries p l = some e →
      ∃ k, (k, e) ∈ l := by
  intro l
  induction l with
  | nil => intro h; cases h
  | cons kv rest ih =>
    intro h
    by_cases hk : kv.1 = p
    · simp only [lookupEntries, if_pos hk, Option.some.injEq] at h
      exact ⟨kv.1, by simp [← h]⟩
    · simp only [lookupEntries, if_neg hk] at h
      obtain ⟨k, hm⟩ := ih h
      exact ⟨k, by simp [hm]⟩

theorem childrenOf_plain {fs : FileSystem} {p : String} {names : List String}
    (hwf : fs.WF) (h : fs.childrenOf p = some names) :
    ∀ n ∈ names, PlainSeg n := by
  unfold FileSystem.childrenOf at h
  cases hl : fs.lookup p with
  | none => rw [hl] at h; cases h
  | some e =>
    rw [hl] at h
    cases e with
    | file c => cases h
    | dir ns =>
      simp only [Option.some.injEq] at h
      obtain ⟨k, hm⟩ := lookupEntries_mem hl
      have := hwf (k, FsEntry.dir ns) hm
      rw [← h]
      exact this

theorem findWorktreeEntry_mem {fs : FileSystem} {wtd target ep : String} :
    ∀ {names : List String},
      findWorktreeEntry fs wtd names target = some ep →
      ∃ n ∈ names, ep = joinPath wtd n := by
  intro names
  induction names with
  | nil => intro h; cases h
  | cons n rest ih =>
    intro h
    simp only [findWorktreeEntry] at h
    split at h
    · split at h
      · split at h
        · cases h
          exact ⟨n, by simp, rfl⟩
        · obtain ⟨n2, hn2, he⟩ := ih h
          exact ⟨n2, by simp [hn2], he⟩
      · obtain ⟨n2, hn2, he⟩ := ih h
        exact ⟨n2, by simp [hn2], he⟩
    · obtain ⟨n2, hn2, he⟩ := ih h
      exact ⟨n2, by simp [hn2], he⟩

/-- C1: the sole invocation point of `gitWorktrees.removeWorktree` — the
worktree panel renderer — hides the archive button and attaches no
removal handler when `isMain` is set, structurally excluding the main
worktree from the removable set (first conjunct). And whenever
`removeWorktree` runs against a tracked repository whose root is the main
checkout (its `.git` is a real directory) on a target other than the
repository root — which the exclusion guarantees, the main record's uri
being that root — every path it deletes is either the administrative
entry inside `<root>/.git/worktrees/` (strictly longer than the root, so
never the root itself) or the target working directory; the repository
root is never deleted (second conjunct). -/
theorem c1_remove_never_deletes_repo_root
    (fs : FileSystem) (repos : List IGitWorktreeRepository)
    (repo : IGitWorktreeRepository) (w : IGitWorktree) (deleted : List String)
    (hwf : fs.WF) (hroot : PathWF repo.rootUri)
    (hfind : repos.find? (fun r => r.worktrees.any (fun w2 => w2.uri = w.uri))
      = some repo)
    (hgit : fs.statIsDir (joinPath repo.rootUri ".git") = some true)
    (hne : w.uri ≠ repo.rootUri)
    (hrun : removeWorktree fs repos w.uri = Except.ok deleted) :
    (w.isMain = true → (renderElement w).removeHandlerAttached = false)
    ∧ repo.rootUri ∉ deleted := by
  constructor
  · intro h
    simp [renderElement, h]
  · have hg : PlainSeg ".git" := by decide
    have hwt : PlainSeg "worktrees" := by decide
    have hwf1 : PathWF (joinPath repo.rootUri ".git") := pathWF_joinPath hroot hg
    have hwf2 : PathWF (joinPath (joinPath repo.rootUri ".git") "worktrees") :=
      pathWF_joinPath hwf1 hwt
    simp only [removeWorktree, hfind, resolveGitDir_of_dir hgit,
      Except.ok.injEq] at hrun
    rw [← hrun]
    intro hmem
    rcases List.mem_append.mp hmem with hmem | hmem
    · cases hch : fs.childrenOf
          (joinPath (joinPath repo.rootUri ".git") "worktrees") with
      | none =>
        simp only [hch] at hmem
        cases hmem
      | some names =>
        simp only [hch] at hmem
        cases hfe : findWorktreeEntry fs
            (joinPath (joinPath repo.rootUri ".git") "worktrees") names w.uri with
        | none =>
          simp only [hfe, Option.toList_none] at hmem
          cases hmem
        | some ep =>
          simp only [hfe, Option.toList_some] at hmem
          have hroot_ep : repo.rootUri = ep := by simpa using hmem
          obtain ⟨n, hn, hepj⟩ := findWorktreeEntry_mem hfe
          have hplain : PlainSeg n := childrenOf_plain hwf hch n hn
          have l1 := length_joinPath_gt hroot hg
          have l2 := length_joinPath_gt hwf1 hwt
          have l3 := length_joinPath_gt hwf2 hplain
          rw [hepj] at hroot_ep
          have hlen : repo.rootUri.length
              < (joinPath (joinPath (joinPath repo.rootUri ".git") "worktrees") n).length := by
            omega
          rw [← hroot_ep] at hlen
          omega
    · by_cases hex : fs.pathExists w.uri = true
      · rw [if_pos hex] at hmem
        have : repo.rootUri = w.uri := by simpa using hmem
        exact hne this.symm
      · rw [if_neg hex] at hmem
        cases hmem

/-- The non-main `wt1` record of `repoC5`, the concrete removal target. -/
def wtC1 : IGitWorktree :=
  { name := "wt1", path := "/wts/feature", uri := "/wts/feature",
    branch := "feature", isCurrent := false, isMain := false,
    isDetached := false }

/-- Witness for C1: concrete removal of `fsC2`'s `wt1` record, with the
repository root surviving. -/
theorem c1_witness :
    fsC2.WF ∧ PathWF "/repo"
    ∧ ((wtC1.isMain = true → (renderElement wtC1).removeHandlerAttached = false)
      ∧ "/repo" ∉ ["/repo/.git/worktrees/wt1"]) := by
  refine ⟨by decide, by decide, ?_⟩
  exact c1_remove_never_deletes_repo_root fsC2 [repoC5] repoC5 wtC1
    ["/repo/.git/worktrees/wt1"]
    (by decide) (by decide) (by decide) (by decide) (by decide) (by rfl)

end Nostromo
